import Mathlib

/-!
Verification development for the `rust-simplefs` repository: a minimal
read-only flat archive format.  The source is shallowly embedded: bytes are
natural numbers (values `< 256` on the wire), machine integers (`u16`, `u32`,
`u64`, `usize`) are `Nat` with explicit `2 ^ w` bounds where the code checks
them, fallible operations return `Except`, and the abstract storage backend
is a structure holding a capacity and a read function.
-/

namespace SimpleFs

/-- `size_of::<FilesystemHeader>()` in `lib.rs`: 8-byte signature plus a
2-byte file count, packed with no padding (checked there by
`_HDR_SIZE_CHECK : [u8; 10]`). -/
def headerSize : Nat := 10

/-- `size_of::<DirEntry>()` in `lib.rs`: 4-byte offset plus 4-byte length
(checked there by `_DIRENTRY_SIZE_CHECK : [u8; 8]`). -/
def entrySize : Nat := 8

/-- The fixed signature constant from `lib.rs` (the bytes of the ASCII text
SimpleFS read as a big-endian u64). -/
def SIGNATURE : Nat := 0x53696d706c654653

/-- Big-endian interpretation of a byte list, as done by the `bytes` crate
accessors `get_u64` / `get_u32` / `get_u16` used in `from_bytes`. -/
def beBytesToNat (l : List Nat) : Nat :=
  l.foldl (fun acc b => acc * 256 + b) 0

/-- Big-endian encoding of a natural number into `k` bytes, as done by the
`bytes` crate writers `put_u64` / `put_u32` / `put_u16` used in `to_bytes`. -/
def natToBeBytes : Nat → Nat → List Nat
  | 0, _ => []
  | k + 1, n => natToBeBytes k (n / 256) ++ [n % 256]

/-- `FilesystemHeader` from `lib.rs`: `signature: u64`, `num_files: u16`. -/
structure FilesystemHeader where
  signature : Nat
  num_files : Nat
deriving DecidableEq

/-- `FilesystemHeader::from_bytes`: fails when fewer than `headerSize` bytes
remain, otherwise reads an 8-byte big-endian signature followed by a 2-byte
big-endian file count. -/
def FilesystemHeader.from_bytes (l : List Nat) : Option FilesystemHeader :=
  if l.length < headerSize then none
  else some ⟨beBytesToNat (l.take 8), beBytesToNat ((l.drop 8).take 2)⟩

/-- `FilesystemHeader::to_bytes`: `put_u64(signature)` then
`put_u16(num_files)`. -/
def FilesystemHeader.to_bytes (h : FilesystemHeader) : List Nat :=
  natToBeBytes 8 h.signature ++ natToBeBytes 2 h.num_files

/-- `DirEntry` from `lib.rs`: `offset: u32`, `length: u32`. -/
structure DirEntry where
  offset : Nat
  length : Nat
deriving DecidableEq

/-- `DirEntry::from_bytes`: fails when fewer than `entrySize` bytes remain,
otherwise reads two 4-byte big-endian values. -/
def DirEntry.from_bytes (l : List Nat) : Option DirEntry :=
  if l.length < entrySize then none
  else some ⟨beBytesToNat (l.take 4), beBytesToNat ((l.drop 4).take 4)⟩

/-- `DirEntry::to_bytes`: `put_u32(offset)` then `put_u32(length)`. -/
def DirEntry.to_bytes (e : DirEntry) : List Nat :=
  natToBeBytes 4 e.offset ++ natToBeBytes 4 e.length

/-- The `Storage` trait from `lib.rs`: a total byte size and a fallible read.
`read off len = some l` models a successful `read(off, buf)` for a buffer of
length `len` that wrote the bytes `l`; `none` models the backend's error. -/
structure Storage where
  capacity : Nat
  read : Nat → Nat → Option (List Nat)

/-- The contents of a fixed-size zero-initialized stack buffer (`[0; len]` in
the Rust code) after a successful `Storage::read` wrote the bytes `l` into
it: the buffer always keeps exactly `len` bytes. -/
def fillBuf (len : Nat) (l : List Nat) : List Nat :=
  l.take len ++ List.replicate (len - l.length) 0

/-- The error enum from `lib.rs`; `storageFailure` stands for
`Error::Storage(inner)` with the backend's error erased. -/
inductive Error where
  | InvalidSignature
  | CorruptedFileSystem
  | InvalidFileIndex
  | storageFailure
deriving DecidableEq

/-- `FileSystem` from `lib.rs`: the storage backend plus the cached
`num_files` value decoded at mount time. -/
structure FileSystem where
  storage : Storage
  num_files : Nat

/-- `FileSystem::mount` from `lib.rs`, line for line: capacity check, header
read into a 10-byte stack buffer, header decode, signature check, and the
directory-fits check. -/
def mount (storage : Storage) : Except Error FileSystem :=
  if storage.capacity < headerSize then .error .CorruptedFileSystem
  else
    match storage.read 0 headerSize with
    | none => .error .storageFailure
    | some raw =>
      match FilesystemHeader.from_bytes (fillBuf headerSize raw) with
      | none => .error .CorruptedFileSystem
      | some header =>
        if header.signature ≠ SIGNATURE then .error .InvalidSignature
        else if storage.capacity < headerSize + header.num_files * entrySize then
          .error .CorruptedFileSystem
        else .ok ⟨storage, header.num_files⟩

/-- `FileSystem::get_num_files`. -/
def FileSystem.get_num_files (fs : FileSystem) : Nat :=
  fs.num_files

/-- `File` from `lib.rs`: the borrowed storage backend plus the three cursor
fields. -/
structure File where
  storage : Storage
  file_offset : Nat
  file_size : Nat
  read_position : Nat

/-- `File::new`: the offset and size come from the directory entry, the read
position starts at zero. -/
def File.new (storage : Storage) (direntry : DirEntry) : File :=
  ⟨storage, direntry.offset, direntry.length, 0⟩

/-- `File::total_size`. -/
def File.total_size (f : File) : Nat :=
  f.file_size

/-- `FileSystem::open` from `lib.rs` (named `openFile` because `open` is a
Lean keyword): index check, directory-entry read into an 8-byte stack
buffer, entry decode, and the `offset + length <= capacity` check. -/
def FileSystem.openFile (fs : FileSystem) (index : Nat) : Except Error File :=
  if index ≥ fs.num_files then .error .InvalidFileIndex
  else
    match fs.storage.read (headerSize + index * entrySize) entrySize with
    | none => .error .storageFailure
    | some raw =>
      match DirEntry.from_bytes (fillBuf entrySize raw) with
      | none => .error .CorruptedFileSystem
      | some direntry =>
        if direntry.offset + direntry.length > fs.storage.capacity then
          .error .CorruptedFileSystem
        else .ok (File.new fs.storage direntry)

/-- `File::read` from `lib.rs`.  The caller's buffer is represented by its
length; the result carries the returned count together with the bytes the
storage wrote into the buffer prefix, and the updated `File` models the
`&mut self` receiver (unchanged when no bytes are consumed or the storage
fails). -/
def File.read (f : File) (bufLen : Nat) : Except Error (Nat × List Nat) × File :=
  let max_read := f.file_size - f.read_position
  let bytes_to_read := min bufLen max_read
  if bytes_to_read > 0 then
    match f.storage.read (f.file_offset + f.read_position) bytes_to_read with
    | none => (.error .storageFailure, f)
    | some data =>
      (.ok (bytes_to_read, fillBuf bytes_to_read data),
       { f with read_position := f.read_position + bytes_to_read })
  else (.ok (0, []), f)

/-- The `(offset, buffer length)` arguments of the `Storage::read` calls
issued by `mount`: one header read, made exactly when the capacity admits a
header. -/
def mountCalls (storage : Storage) : List (Nat × Nat) :=
  if storage.capacity < headerSize then [] else [(0, headerSize)]

/-- The `(offset, buffer length)` arguments of the `Storage::read` calls
issued by `FileSystem::open`: one directory-entry read, made exactly when
the index is in range. -/
def openCalls (fs : FileSystem) (index : Nat) : List (Nat × Nat) :=
  if index ≥ fs.num_files then []
  else [(headerSize + index * entrySize, entrySize)]

/-- The `(offset, buffer length)` arguments of the `Storage::read` calls
issued by `File::read`: one data read, made exactly when the computed count
is positive. -/
def readCalls (f : File) (bufLen : Nat) : List (Nat × Nat) :=
  let bytes_to_read := min bufLen (f.file_size - f.read_position)
  if bytes_to_read > 0 then [(f.file_offset + f.read_position, bytes_to_read)]
  else []

/-- The `RamStorage` backend from the repository's tests: an in-memory byte
buffer, failing on any out-of-bounds access and otherwise copying the
requested slice. -/
def RamStorage (bytes : List Nat) : Storage where
  capacity := bytes.length
  read := fun off len =>
    if off + len ≤ bytes.length then some ((bytes.drop off).take len) else none

/-- `BuilderError` from `builder.rs`. -/
inductive BuilderError where
  | OutOfSpace
  | TooManyFiles
  | FileTooBig
deriving DecidableEq

/-- `FileInfo` from `builder.rs`: one pending payload. -/
structure FileInfo where
  data : List Nat
deriving DecidableEq

/-- `SimpleFsBuilder` from `builder.rs`. -/
structure SimpleFsBuilder where
  capacity : Nat
  files : List FileInfo

/-- `SimpleFsBuilder::new`. -/
def SimpleFsBuilder.new (capacity : Nat) : SimpleFsBuilder :=
  ⟨capacity, []⟩

/-- `SimpleFsBuilder::add_file`: appends one payload unconditionally. -/
def SimpleFsBuilder.add_file (b : SimpleFsBuilder) (data : List Nat) : SimpleFsBuilder :=
  ⟨b.capacity, b.files ++ [⟨data⟩]⟩

/-- The directory-entry loop of `SimpleFsBuilder::finalize`, carrying
`current_offset`.  Per file, in source order: the offset must fit `u32`
(`try_into` failure mapped to `OutOfSpace`), the length must fit `u32`
(failure mapped to `FileTooBig`), then `current_offset` is advanced and
checked against the capacity. -/
def finalizeLoop (cap : Nat) : Nat → List FileInfo → Except BuilderError (List DirEntry)
  | _, [] => .ok []
  | off, file :: rest =>
    if off ≥ 2 ^ 32 then .error .OutOfSpace
    else if file.data.length ≥ 2 ^ 32 then .error .FileTooBig
    else
      let off' := off + file.data.length
      if off' > cap then .error .OutOfSpace
      else
        match finalizeLoop cap off' rest with
        | .error e => .error e
        | .ok entries => .ok (⟨off, file.data.length⟩ :: entries)

/-- `SimpleFsBuilder::finalize`: the file count must fit `u16`
(`TooManyFiles`), then the header, the directory entries produced by the
loop (starting from `header_size + dir_size`), and the payloads are emitted
in that order into one buffer. -/
def SimpleFsBuilder.finalize (b : SimpleFsBuilder) : Except BuilderError (List Nat) :=
  if b.files.length ≥ 2 ^ 16 then .error .TooManyFiles
  else
    let dir_size := b.files.length * entrySize
    match finalizeLoop b.capacity (headerSize + dir_size) b.files with
    | .error e => .error e
    | .ok entries =>
      .ok ((FilesystemHeader.to_bytes ⟨SIGNATURE, b.files.length⟩)
        ++ (entries.map DirEntry.to_bytes).flatten
        ++ (b.files.map FileInfo.data).flatten)

/-- Total byte length of a list of payloads. -/
def totalLen (ds : List (List Nat)) : Nat :=
  (ds.map List.length).sum

/-- The expected directory entries for payloads `ds` when the first payload
lands at offset `off`: a pure running sum. -/
def specEntries (off : Nat) : List (List Nat) → List DirEntry
  | [] => []
  | d :: rest => ⟨off, d.length⟩ :: specEntries (off + d.length) rest

/-- Slice of a byte list: `len` bytes starting at `off`. -/
def byteSlice (l : List Nat) (off len : Nat) : List Nat :=
  (l.drop off).take len

/-- Iterating `File::read` with a sequence of buffer sizes, collecting the
returned chunks; stops at the first storage error.  This is the harness for
the spec's repeated-small-reads property. -/
def readMany : File → List Nat → Except Error (List (List Nat)) × File
  | f, [] => (.ok [], f)
  | f, s :: rest =>
    match f.read s with
    | (.error e, f') => (.error e, f')
    | (.ok (_, chunk), f') =>
      match readMany f' rest with
      | (.error e, f'') => (.error e, f'')
      | (.ok chunks, f'') => (.ok (chunk :: chunks), f'')

/-- The file handles reachable against storage `s`: those returned by `open`
on a mounted filesystem, and those produced by further `read` steps. -/
inductive GoodFile (s : Storage) : File → Prop where
  | opened : ∀ (fs : FileSystem) (i : Nat) (f : File),
      mount s = .ok fs → fs.openFile i = .ok f → GoodFile s f
  | stepped : ∀ (f : File) (bufLen : Nat) (r : Except Error (Nat × List Nat)) (f' : File),
      GoodFile s f → f.read bufLen = (r, f') → GoodFile s f'

/-- The `(offset, buffer length)` pairs with which the filesystem can ever
invoke `Storage::read` on `s`, over every sequence of mount, open and read
operations. -/
inductive ReadCall (s : Storage) : Nat × Nat → Prop where
  | mount_call : ∀ c, c ∈ mountCalls s → ReadCall s c
  | open_call : ∀ (fs : FileSystem) (i : Nat) (c : Nat × Nat),
      mount s = .ok fs → c ∈ openCalls fs i → ReadCall s c
  | read_call : ∀ (f : File) (bufLen : Nat) (c : Nat × Nat),
      GoodFile s f → c ∈ readCalls f bufLen → ReadCall s c

/-- The 21-byte test payload from the repository's tests. -/
def data21 : List Nat :=
  [1, 2, 3, 4, 5, 6, 7, 8, 9, 10, 11, 12, 13, 14, 15, 16, 17, 18, 19, 20, 21]

def img39 : List Nat :=
  [83, 105, 109, 112, 108, 101, 70, 83, 0, 1, 0, 0, 0, 18, 0, 0, 0, 21] ++ data21

/-- A tampered 18-byte image: a valid header declaring one file, whose
single directory entry points at offset 0 with length 8 — the signature
bytes themselves. -/
def imgTampered : List Nat :=
  [83, 105, 109, 112, 108, 101, 70, 83, 0, 1, 0, 0, 0, 0, 0, 0, 0, 8]

/-- An 18-byte image with one directory entry whose offset `2^32 - 1` and
length 1 overflow the 18-byte capacity. -/
def imgBadEntry : List Nat :=
  [83, 105, 109, 112, 108, 101, 70, 83, 0, 1, 255, 255, 255, 255, 0, 0, 0, 1]

/-! ### Byte codec lemmas -/

theorem length_natToBeBytes (k n : Nat) : (natToBeBytes k n).length = k := by
  induction k generalizing n with
  | zero => rfl
  | succ k ih => simp [natToBeBytes, ih]

theorem mod_mul_base (b q r m : Nat) (hr : r < b) :
    (b * q + r) % (b * m) = b * (q % m) + r := by
  rcases Nat.eq_zero_or_pos m with hm | hm
  · subst hm; simp
  · have hb : 0 < b := by omega
    have hbm : b ≤ b * m := by
      calc b = b * 1 := (Nat.mul_one b).symm
        _ ≤ b * m := Nat.mul_le_mul_left b hm
    rw [Nat.add_mod, Nat.mul_mod_mul_left]
    rw [Nat.mod_eq_of_lt (show r < b * m by omega)]
    apply Nat.mod_eq_of_lt
    have hq : q % m < m := Nat.mod_lt q hm
    calc b * (q % m) + r < b * (q % m) + b := by omega
      _ = b * (q % m + 1) := by ring
      _ ≤ b * m := Nat.mul_le_mul_left b (by omega)

theorem beBytesToNat_natToBeBytes (k n : Nat) :
    beBytesToNat (natToBeBytes k n) = n % 256 ^ k := by
  induction k generalizing n with
  | zero => simp [natToBeBytes, beBytesToNat, Nat.mod_one]
  | succ k ih =>
    have hfold : ∀ (xs : List Nat) (b : Nat),
        beBytesToNat (xs ++ [b]) = beBytesToNat xs * 256 + b := by
      intro xs b; simp [beBytesToNat]
    rw [natToBeBytes, hfold, ih]
    calc n / 256 % 256 ^ k * 256 + n % 256
        = 256 * (n / 256 % 256 ^ k) + n % 256 := by ring
      _ = (256 * (n / 256) + n % 256) % (256 * 256 ^ k) :=
          (mod_mul_base 256 (n / 256) (n % 256) (256 ^ k) (Nat.mod_lt n (by omega))).symm
      _ = n % (256 * 256 ^ k) := by rw [Nat.div_add_mod]
      _ = n % 256 ^ (k + 1) := by rw [show (256 : Nat) ^ (k + 1) = 256 * 256 ^ k by ring]

theorem fillBuf_length (len : Nat) (l : List Nat) : (fillBuf len l).length = len := by
  simp only [fillBuf, List.length_append, List.length_take, List.length_replicate]
  omega

theorem fillBuf_eq_self (len : Nat) (l : List Nat) (h : l.length = len) :
    fillBuf len l = l := by
  subst h
  simp [fillBuf]

theorem byteSlice_length (l : List Nat) (off len : Nat) (h : off + len ≤ l.length) :
    (byteSlice l off len).length = len := by
  simp only [byteSlice, List.length_take, List.length_drop]
  omega

theorem header_from_to (sig n : Nat) (hs : sig < 2 ^ 64) (hn : n < 2 ^ 16) :
    FilesystemHeader.from_bytes (FilesystemHeader.to_bytes ⟨sig, n⟩) = some ⟨sig, n⟩ := by
  have h8 : (natToBeBytes 8 sig).length = 8 := length_natToBeBytes 8 sig
  have h2 : (natToBeBytes 2 n).length = 2 := length_natToBeBytes 2 n
  have hsig : beBytesToNat (natToBeBytes 8 sig) = sig := by
    rw [beBytesToNat_natToBeBytes]
    exact Nat.mod_eq_of_lt (by calc sig < 2 ^ 64 := hs
                                 _ = 256 ^ 8 := by norm_num)
  have hcnt : beBytesToNat (natToBeBytes 2 n) = n := by
    rw [beBytesToNat_natToBeBytes]
    exact Nat.mod_eq_of_lt (by calc n < 2 ^ 16 := hn
                                 _ = 256 ^ 2 := by norm_num)
  unfold FilesystemHeader.from_bytes FilesystemHeader.to_bytes
  dsimp only
  rw [if_neg (by simp [headerSize, h8, h2])]
  rw [List.take_left' h8, List.drop_left' h8, List.take_of_length_le (by omega), hsig, hcnt]

theorem direntry_from_to (o l : Nat) (ho : o < 2 ^ 32) (hl : l < 2 ^ 32) :
    DirEntry.from_bytes (DirEntry.to_bytes ⟨o, l⟩) = some ⟨o, l⟩ := by
  have h4 : (natToBeBytes 4 o).length = 4 := length_natToBeBytes 4 o
  have h4' : (natToBeBytes 4 l).length = 4 := length_natToBeBytes 4 l
  have hoff : beBytesToNat (natToBeBytes 4 o) = o := by
    rw [beBytesToNat_natToBeBytes]
    exact Nat.mod_eq_of_lt (by calc o < 2 ^ 32 := ho
                                 _ = 256 ^ 4 := by norm_num)
  have hlen : beBytesToNat (natToBeBytes 4 l) = l := by
    rw [beBytesToNat_natToBeBytes]
    exact Nat.mod_eq_of_lt (by calc l < 2 ^ 32 := hl
                                 _ = 256 ^ 4 := by norm_num)
  unfold DirEntry.from_bytes DirEntry.to_bytes
  dsimp only
  rw [if_neg (by simp [entrySize, h4, h4'])]
  rw [List.take_left' h4, List.drop_left' h4, List.take_of_length_le (by omega), hoff, hlen]

theorem direntry_to_bytes_length (e : DirEntry) : e.to_bytes.length = entrySize := by
  simp [DirEntry.to_bytes, length_natToBeBytes, entrySize]

theorem header_to_bytes_length (h : FilesystemHeader) :
    h.to_bytes.length = headerSize := by
  simp [FilesystemHeader.to_bytes, length_natToBeBytes, headerSize]

/-! ### Payload bookkeeping lemmas -/

theorem totalLen_nil : totalLen [] = 0 := rfl

theorem totalLen_cons (d : List Nat) (ds : List (List Nat)) :
    totalLen (d :: ds) = d.length + totalLen ds := by
  simp [totalLen]

theorem totalLen_append (a b : List (List Nat)) :
    totalLen (a ++ b) = totalLen a + totalLen b := by
  simp [totalLen]

theorem totalLen_replicate_nil (n : Nat) : totalLen (List.replicate n ([] : List Nat)) = 0 := by
  induction n with
  | zero => rfl
  | succ k ih => rw [List.replicate_succ, totalLen_cons, ih]; rfl

theorem totalLen_map_replicate_nil (n : Nat) :
    totalLen ((List.replicate n (FileInfo.mk [])).map FileInfo.data) = 0 := by
  rw [List.map_replicate]
  exact totalLen_replicate_nil n

theorem finalize_tooMany (b : SimpleFsBuilder) (h : b.files.length ≥ 2 ^ 16) :
    b.finalize = .error .TooManyFiles := by
  unfold SimpleFsBuilder.finalize
  rw [if_pos h]

theorem totalLen_take_le (ds : List (List Nat)) (k : Nat) :
    totalLen (ds.take k) ≤ totalLen ds := by
  conv_rhs => rw [← List.take_append_drop k ds]
  rw [totalLen_append]
  omega

theorem length_flatten_eq_totalLen (ds : List (List Nat)) :
    ds.flatten.length = totalLen ds := by
  simp [totalLen, List.length_flatten]

theorem specEntries_length (off : Nat) (ds : List (List Nat)) :
    (specEntries off ds).length = ds.length := by
  induction ds generalizing off with
  | nil => rfl
  | cons d rest ih => simp [specEntries, ih]

theorem specEntries_getD (ds : List (List Nat)) : ∀ (off i : Nat), i < ds.length →
    (specEntries off ds).getD i ⟨0, 0⟩ =
      ⟨off + totalLen (ds.take i), (ds.getD i []).length⟩ := by
  induction ds with
  | nil => intro off i h; simp at h
  | cons d rest ih =>
    intro off i h
    cases i with
    | zero => simp [specEntries, totalLen]
    | succ j =>
      have hj : j < rest.length := by simpa using h
      simp only [specEntries, List.getD_cons_succ, List.take_succ_cons, totalLen_cons]
      rw [ih (off + d.length) j hj]
      simp [Nat.add_assoc]

/-! ### Slicing the concatenated image -/

theorem flatten_uniform_slice (k : Nat) (L : List (List Nat)) : ∀ (i : Nat),
    (∀ x ∈ L, x.length = k) → i < L.length →
    byteSlice L.flatten (k * i) k = L.getD i [] := by
  induction L with
  | nil => intro i _ h; simp at h
  | cons x rest ih =>
    intro i hk hi
    have hx : x.length = k := hk x (by simp)
    cases i with
    | zero =>
      simp only [byteSlice, Nat.mul_zero, List.flatten_cons, List.drop_zero, List.getD_cons_zero]
      rw [← hx]
      exact List.take_left x rest.flatten
    | succ j =>
      have heq : k * (j + 1) = x.length + k * j := by rw [hx]; ring
      simp only [byteSlice, List.flatten_cons, List.getD_cons_succ]
      rw [heq, List.drop_append]
      exact ih j (fun y hy => hk y (by simp [hy])) (by simpa using hi)

theorem flatten_drop_totalLen (ds : List (List Nat)) : ∀ (i : Nat),
    ds.flatten.drop (totalLen (ds.take i)) = (ds.drop i).flatten := by
  induction ds with
  | nil => intro i; simp [totalLen]
  | cons d rest ih =>
    intro i
    cases i with
    | zero => simp [totalLen]
    | succ j =>
      simp only [List.take_succ_cons, totalLen_cons, List.flatten_cons, List.drop_succ_cons]
      rw [List.drop_append]
      exact ih j

theorem flatten_slice_at (ds : List (List Nat)) (i : Nat) (h : i < ds.length) :
    byteSlice ds.flatten (totalLen (ds.take i)) (ds.getD i []).length = ds.getD i [] := by
  rw [byteSlice, flatten_drop_totalLen, List.drop_eq_getElem_cons h, List.flatten_cons,
    List.getD_eq_getElem ds [] h]
  exact List.take_left _ _

/-! ### Characterizing the finalize loop -/

theorem finalizeLoop_ok (cap : Nat) (files : List FileInfo) :
    ∀ (off : Nat) (es : List DirEntry), finalizeLoop cap off files = .ok es →
    es = specEntries off (files.map FileInfo.data) ∧
    (∀ f ∈ files, f.data.length < 2 ^ 32) ∧
    (∀ i, i < files.length → off + totalLen ((files.map FileInfo.data).take i) < 2 ^ 32) ∧
    (files ≠ [] → off + totalLen (files.map FileInfo.data) ≤ cap) := by
  induction files with
  | nil =>
    intro off es h
    simp only [finalizeLoop] at h
    cases h
    simp [specEntries]
  | cons f rest ih =>
    intro off es h
    rw [finalizeLoop] at h
    split at h
    · simp at h
    · split at h
      · simp at h
      · dsimp only at h
        split at h
        · simp at h
        · rename_i h1 h2 h3
          split at h
          · simp at h
          · rename_i entries hm
            obtain ⟨hes, hall, hoffs, hcap⟩ := ih (off + f.data.length) entries hm
            cases h
            refine ⟨?_, ?_, ?_, ?_⟩
            · simp only [List.map_cons, specEntries, hes]
            · intro g hg
              rcases List.mem_cons.mp hg with hg | hg
              · subst hg; omega
              · exact hall g hg
            · intro i hi
              cases i with
              | zero => simpa [totalLen] using h1
              | succ j =>
                have hj : j < rest.length := by simpa using hi
                have := hoffs j hj
                simp only [List.map_cons, List.take_succ_cons, totalLen_cons]
                omega
            · intro _
              simp only [List.map_cons, totalLen_cons]
              rcases List.eq_nil_or_concat rest with hrest | ⟨l, b, hrest⟩
              · subst hrest
                simp only [List.map_nil, totalLen_nil]
                omega
              · have hne : rest ≠ [] := by subst hrest; simp
                have := hcap hne
                omega

theorem finalizeLoop_ne_tooMany (cap : Nat) (files : List FileInfo) : ∀ (off : Nat),
    finalizeLoop cap off files ≠ .error .TooManyFiles := by
  induction files with
  | nil => intro off; simp [finalizeLoop]
  | cons f rest ih =>
    intro off
    rw [finalizeLoop]
    split
    · simp
    · split
      · simp
      · dsimp only
        split
        · simp
        · split
          · rename_i e he
            intro hcon
            injection hcon with hcon
            subst hcon
            exact ih _ he
          · simp

theorem finalizeLoop_fileTooBig (cap : Nat) (files : List FileInfo) : ∀ (off : Nat),
    finalizeLoop cap off files = .error .FileTooBig →
    ∃ f ∈ files, 2 ^ 32 ≤ f.data.length := by
  induction files with
  | nil => intro off h; simp [finalizeLoop] at h
  | cons f rest ih =>
    intro off h
    rw [finalizeLoop] at h
    split at h
    · simp at h
    · split at h
      · rename_i h2
        exact ⟨f, by simp, h2⟩
      · dsimp only at h
        split at h
        · simp at h
        · split at h
          · rename_i e he
            injection h with h
            subst h
            obtain ⟨g, hg, hgl⟩ := ih _ he
            exact ⟨g, by simp [hg], hgl⟩
          · simp at h

theorem finalizeLoop_outOfSpace (cap : Nat) (files : List FileInfo) : ∀ (off : Nat),
    (∀ f ∈ files, f.data.length < 2 ^ 32) →
    (cap < off + totalLen (files.map FileInfo.data) ∨
      ∃ i, i < files.length ∧ 2 ^ 32 ≤ off + totalLen ((files.map FileInfo.data).take i)) →
    files ≠ [] →
    finalizeLoop cap off files = .error .OutOfSpace := by
  induction files with
  | nil => intro off _ _ hne; exact absurd rfl hne
  | cons f rest ih =>
    intro off hall hbad _
    rw [finalizeLoop]
    by_cases h1 : off ≥ 2 ^ 32
    · rw [if_pos h1]
    · rw [if_neg h1]
      have h2 : ¬ f.data.length ≥ 2 ^ 32 := by
        have := hall f (by simp)
        omega
      rw [if_neg h2]
      dsimp only
      by_cases h3 : off + f.data.length > cap
      · rw [if_pos h3]
      · rw [if_neg h3]
        have hrec : finalizeLoop cap (off + f.data.length) rest = .error .OutOfSpace := by
          apply ih
          · intro g hg; exact hall g (by simp [hg])
          · rcases hbad with hc | ⟨i, hi, hov⟩
            · left
              simp only [List.map_cons, totalLen_cons] at hc
              omega
            · cases i with
              | zero =>
                simp only [List.take_zero, totalLen_nil] at hov
                omega
              | succ j =>
                right
                refine ⟨j, by simpa using hi, ?_⟩
                simp only [List.map_cons, List.take_succ_cons, totalLen_cons] at hov
                omega
          · rcases hbad with hc | ⟨i, hi, hov⟩
            · rintro rfl
              simp only [List.map_cons, List.map_nil, totalLen_cons, totalLen_nil] at hc
              omega
            · cases i with
              | zero =>
                simp only [List.take_zero, totalLen_nil] at hov
                omega
              | succ j =>
                rintro rfl
                simp at hi
        rw [hrec]

/-! ### The layout of a successfully built image -/

theorem finalize_ok_layout (c : Nat) (files : List FileInfo) (img : List Nat)
    (h : SimpleFsBuilder.finalize ⟨c, files⟩ = .ok img) :
    files.length < 2 ^ 16 ∧
    img = FilesystemHeader.to_bytes ⟨SIGNATURE, files.length⟩
      ++ (((specEntries (headerSize + files.length * entrySize)
            (files.map FileInfo.data)).map DirEntry.to_bytes).flatten
          ++ (files.map FileInfo.data).flatten) ∧
    (∀ f ∈ files, f.data.length < 2 ^ 32) ∧
    (∀ i, i < files.length →
      headerSize + files.length * entrySize
        + totalLen ((files.map FileInfo.data).take i) < 2 ^ 32) ∧
    (files ≠ [] →
      headerSize + files.length * entrySize + totalLen (files.map FileInfo.data) ≤ c) := by
  unfold SimpleFsBuilder.finalize at h
  dsimp only at h
  split at h
  · simp at h
  · rename_i hn
    split at h
    · simp at h
    · rename_i entries hm
      obtain ⟨hes, hall, hoffs, hcap⟩ := finalizeLoop_ok c files _ entries hm
      cases h
      subst hes
      exact ⟨by omega, by rw [List.append_assoc], hall, hoffs, hcap⟩

theorem entriesBytes_length (es : List DirEntry) :
    (es.map DirEntry.to_bytes).flatten.length = entrySize * es.length := by
  induction es with
  | nil => simp
  | cons e rest ih =>
    simp only [List.map_cons, List.flatten_cons, List.length_append,
      direntry_to_bytes_length, ih, List.length_cons]
    ring

theorem byteSlice_append (A X : List Nat) (r k : Nat) :
    byteSlice (A ++ X) (A.length + r) k = byteSlice X r k := by
  simp [byteSlice, List.drop_append]

theorem totalLen_take_succ (ds : List (List Nat)) (i : Nat) (h : i < ds.length) :
    totalLen (ds.take (i + 1)) = totalLen (ds.take i) + (ds.getD i []).length := by
  rw [List.take_succ, totalLen_append, List.getElem?_eq_getElem h]
  simp [totalLen, List.getElem?_eq_getElem h]

theorem getD_map_of_lt {α β : Type} (f : α → β) (l : List α) (i : Nat) (d : α) (d' : β)
    (h : i < l.length) : (l.map f).getD i d' = f (l.getD i d) := by
  rw [List.getD_eq_getElem _ _ (by simpa using h), List.getD_eq_getElem _ _ h,
    List.getElem_map]

theorem RamStorage_capacity (bytes : List Nat) :
    (RamStorage bytes).capacity = bytes.length := rfl

theorem RamStorage_read_def (bytes : List Nat) (off len : Nat) :
    (RamStorage bytes).read off len =
      if off + len ≤ bytes.length then some (byteSlice bytes off len) else none := rfl

/-! ### Mount, open and read on a built image -/

theorem mount_built (n : Nat) (EB PJ : List Nat) (hn : n < 2 ^ 16)
    (hEB : EB.length = entrySize * n) :
    mount (RamStorage (FilesystemHeader.to_bytes ⟨SIGNATURE, n⟩ ++ (EB ++ PJ))) =
      .ok ⟨RamStorage (FilesystemHeader.to_bytes ⟨SIGNATURE, n⟩ ++ (EB ++ PJ)), n⟩ := by
  have hH : (FilesystemHeader.to_bytes ⟨SIGNATURE, n⟩).length = headerSize :=
    header_to_bytes_length _
  have hlen : (FilesystemHeader.to_bytes ⟨SIGNATURE, n⟩ ++ (EB ++ PJ)).length
      = headerSize + (EB.length + PJ.length) := by simp [hH]
  have hEB' : EB.length = n * entrySize := by rw [hEB]; ring
  unfold mount
  simp only [RamStorage_capacity, RamStorage_read_def]
  rw [if_neg (by omega), if_pos (by omega)]
  have hslice : byteSlice (FilesystemHeader.to_bytes ⟨SIGNATURE, n⟩ ++ (EB ++ PJ)) 0 headerSize
      = FilesystemHeader.to_bytes ⟨SIGNATURE, n⟩ := by
    rw [byteSlice, List.drop_zero, List.take_left' hH]
  rw [hslice]
  dsimp only
  rw [fillBuf_eq_self _ _ hH,
    header_from_to SIGNATURE n (by norm_num [SIGNATURE]) hn]
  dsimp only
  rw [if_neg (by simp), if_neg (by omega)]

theorem openFile_built (c : Nat) (files : List FileInfo) (img : List Nat)
    (hfin : SimpleFsBuilder.finalize ⟨c, files⟩ = .ok img) (i : Nat) (hi : i < files.length) :
    (FileSystem.mk (RamStorage img) files.length).openFile i =
      .ok ⟨RamStorage img,
           headerSize + files.length * entrySize
             + totalLen ((files.map FileInfo.data).take i),
           ((files.map FileInfo.data).getD i []).length, 0⟩ := by
  obtain ⟨hn, himg, hall, hoffs, _⟩ := finalize_ok_layout c files img hfin
  have hH : (FilesystemHeader.to_bytes ⟨SIGNATURE, files.length⟩).length = headerSize :=
    header_to_bytes_length _
  have hds : (files.map FileInfo.data).length = files.length := List.length_map files _
  have hesl : (specEntries (headerSize + files.length * entrySize)
      (files.map FileInfo.data)).length = files.length := by
    rw [specEntries_length, hds]
  have hEB : (((specEntries (headerSize + files.length * entrySize)
      (files.map FileInfo.data)).map DirEntry.to_bytes).flatten).length
      = entrySize * files.length := by
    rw [entriesBytes_length, hesl]
  have hPJ : ((files.map FileInfo.data).flatten).length
      = totalLen (files.map FileInfo.data) := length_flatten_eq_totalLen _
  have hlen : img.length = headerSize + (entrySize * files.length
      + totalLen (files.map FileInfo.data)) := by
    rw [himg]; simp [hH, hEB, hPJ]
  unfold FileSystem.openFile
  dsimp only
  rw [if_neg (by omega)]
  simp only [RamStorage_read_def]
  have htk : totalLen ((files.map FileInfo.data).take (i + 1))
      ≤ totalLen (files.map FileInfo.data) := totalLen_take_le _ _
  have htksucc : totalLen ((files.map FileInfo.data).take (i + 1))
      = totalLen ((files.map FileInfo.data).take i)
        + ((files.map FileInfo.data).getD i []).length :=
    totalLen_take_succ _ i (by omega)
  have hib : i * entrySize + entrySize ≤ entrySize * files.length := by
    calc i * entrySize + entrySize = entrySize * (i + 1) := by ring
      _ ≤ entrySize * files.length := Nat.mul_le_mul_left _ (by omega)
  rw [if_pos (by omega)]
  have hslice : byteSlice img (headerSize + i * entrySize) entrySize
      = DirEntry.to_bytes ⟨headerSize + files.length * entrySize
          + totalLen ((files.map FileInfo.data).take i),
          ((files.map FileInfo.data).getD i []).length⟩ := by
    rw [himg, show headerSize + i * entrySize
        = (FilesystemHeader.to_bytes ⟨SIGNATURE, files.length⟩).length + i * entrySize
        by rw [hH]]
    rw [byteSlice_append]
    rw [show i * entrySize = entrySize * i by ring]
    rw [byteSlice]
    rw [List.drop_append_of_le_length (by rw [hEB]; calc entrySize * i ≤ entrySize * files.length := Nat.mul_le_mul_left _ (by omega)
          _ = _ := rfl)]
    rw [List.take_append_of_le_length (by
      rw [List.length_drop, hEB]
      have : entrySize * (i + 1) ≤ entrySize * files.length := Nat.mul_le_mul_left _ (by omega)
      simp only [entrySize] at *
      omega)]
    rw [show (((specEntries (headerSize + files.length * entrySize)
        (files.map FileInfo.data)).map DirEntry.to_bytes).flatten.drop (entrySize * i)).take entrySize
        = byteSlice ((specEntries (headerSize + files.length * entrySize)
            (files.map FileInfo.data)).map DirEntry.to_bytes).flatten (entrySize * i) entrySize
        from rfl]
    rw [flatten_uniform_slice entrySize _ i
      (by intro x hx
          obtain ⟨e, _, he⟩ := List.mem_map.mp hx
          rw [← he]; exact direntry_to_bytes_length e)
      (by rw [List.length_map, hesl]; omega)]
    rw [getD_map_of_lt DirEntry.to_bytes _ i ⟨0, 0⟩ [] (by rw [hesl]; omega)]
    rw [specEntries_getD (files.map FileInfo.data)
      (headerSize + files.length * entrySize) i (by omega)]
  rw [hslice]
  dsimp only
  have h8 : (DirEntry.to_bytes ⟨headerSize + files.length * entrySize
      + totalLen ((files.map FileInfo.data).take i),
      ((files.map FileInfo.data).getD i []).length⟩).length = entrySize :=
    direntry_to_bytes_length _
  rw [fillBuf_eq_self _ _ h8]
  have hmem : (files.map FileInfo.data).getD i [] ∈ files.map FileInfo.data := by
    rw [List.getD_eq_getElem _ [] (by omega)]
    exact List.getElem_mem _
  have hlenlt : ((files.map FileInfo.data).getD i []).length < 2 ^ 32 := by
    obtain ⟨f, hf, he⟩ := List.mem_map.mp hmem
    rw [← he]
    exact hall f hf
  rw [direntry_from_to _ _ (hoffs i hi) hlenlt]
  dsimp only
  have hcomm : files.length * entrySize = entrySize * files.length := by ring
  rw [if_neg (by rw [RamStorage_capacity]; omega)]
  rfl

theorem read_built (c : Nat) (files : List FileInfo) (img : List Nat)
    (hfin : SimpleFsBuilder.finalize ⟨c, files⟩ = .ok img) (i : Nat) (hi : i < files.length) :
    ((File.mk (RamStorage img)
        (headerSize + files.length * entrySize
          + totalLen ((files.map FileInfo.data).take i))
        ((files.map FileInfo.data).getD i []).length 0).read
      ((files.map FileInfo.data).getD i []).length).1 =
      .ok (((files.map FileInfo.data).getD i []).length,
           (files.map FileInfo.data).getD i []) := by
  obtain ⟨hn, himg, hall, hoffs, _⟩ := finalize_ok_layout c files img hfin
  have hH : (FilesystemHeader.to_bytes ⟨SIGNATURE, files.length⟩).length = headerSize :=
    header_to_bytes_length _
  have hds : (files.map FileInfo.data).length = files.length := List.length_map files _
  have hesl : (specEntries (headerSize + files.length * entrySize)
      (files.map FileInfo.data)).length = files.length := by
    rw [specEntries_length, hds]
  have hEB : (((specEntries (headerSize + files.length * entrySize)
      (files.map FileInfo.data)).map DirEntry.to_bytes).flatten).length
      = entrySize * files.length := by
    rw [entriesBytes_length, hesl]
  have hPJ : ((files.map FileInfo.data).flatten).length
      = totalLen (files.map FileInfo.data) := length_flatten_eq_totalLen _
  have hlen : img.length = headerSize + (entrySize * files.length
      + totalLen (files.map FileInfo.data)) := by
    rw [himg]; simp [hH, hEB, hPJ]
  have htksucc : totalLen ((files.map FileInfo.data).take (i + 1))
      = totalLen ((files.map FileInfo.data).take i)
        + ((files.map FileInfo.data).getD i []).length :=
    totalLen_take_succ _ i (by omega)
  have htk : totalLen ((files.map FileInfo.data).take (i + 1))
      ≤ totalLen (files.map FileInfo.data) := totalLen_take_le _ _
  have hcomm : files.length * entrySize = entrySize * files.length := by ring
  unfold File.read
  dsimp only
  simp only [Nat.sub_zero, Nat.min_self, Nat.add_zero]
  rcases Nat.eq_zero_or_pos ((files.map FileInfo.data).getD i []).length with hz | hpos
  · have hnil : (files.map FileInfo.data).getD i [] = [] :=
      List.eq_nil_of_length_eq_zero hz
    rw [if_neg (by omega), hnil]
    rfl
  · rw [if_pos (by omega)]
    simp only [RamStorage_read_def]
    rw [if_pos (by omega)]
    dsimp only
    have hslice : byteSlice img
        (headerSize + files.length * entrySize
          + totalLen ((files.map FileInfo.data).take i))
        ((files.map FileInfo.data).getD i []).length
        = (files.map FileInfo.data).getD i [] := by
      rw [himg, show headerSize + files.length * entrySize
          + totalLen ((files.map FileInfo.data).take i)
          = (FilesystemHeader.to_bytes ⟨SIGNATURE, files.length⟩).length
            + ((((specEntries (headerSize + files.length * entrySize)
                (files.map FileInfo.data)).map DirEntry.to_bytes).flatten).length
              + totalLen ((files.map FileInfo.data).take i))
          by rw [hH, hEB]; ring]
      rw [byteSlice_append, byteSlice_append]
      exact flatten_slice_at _ i (by omega)
    rw [hslice, fillBuf_eq_self _ _ rfl]

theorem specEntries_eq_range (ds : List (List Nat)) : ∀ (off : Nat),
    specEntries off ds = (List.range ds.length).map
      (fun i => ⟨off + totalLen (ds.take i), (ds.getD i []).length⟩) := by
  induction ds with
  | nil => intro off; simp [specEntries]
  | cons d rest ih =>
    intro off
    have htail : (List.range rest.length).map
        (fun i => (⟨off + d.length + totalLen (rest.take i),
          (rest.getD i []).length⟩ : DirEntry))
        = (List.range rest.length).map
          ((fun i => (⟨off + totalLen ((d :: rest).take i),
            ((d :: rest).getD i []).length⟩ : DirEntry)) ∘ Nat.succ) := by
      apply List.map_congr_left
      intro j _
      simp only [Function.comp_apply, List.take_succ_cons, totalLen_cons,
        List.getD_cons_succ]
      rw [Nat.add_assoc]
    rw [specEntries, ih (off + d.length), List.length_cons, List.range_succ_eq_map,
      List.map_cons, List.map_map, htail]
    simp [totalLen]

/-! ### Claim theorems -/

/-- C6: every successfully built image is exactly the 10-byte header (8-byte
big-endian signature constant, 2-byte big-endian file count), followed by one
8-byte big-endian directory entry per file in insertion order whose offset is
`headerSize + num_files * entrySize` plus the lengths of the preceding
payloads, followed by the payloads concatenated in order with no gaps; a
zero-file build is exactly `headerSize` bytes long. -/
theorem C6_image_layout (c : Nat) (files : List FileInfo) (img : List Nat)
    (h : SimpleFsBuilder.finalize ⟨c, files⟩ = .ok img) :
    img = natToBeBytes 8 SIGNATURE ++ natToBeBytes 2 files.length
        ++ ((List.range files.length).map (fun i =>
              natToBeBytes 4 (headerSize + files.length * entrySize
                + totalLen ((files.map FileInfo.data).take i))
              ++ natToBeBytes 4 ((files.map FileInfo.data).getD i []).length)).flatten
        ++ (files.map FileInfo.data).flatten ∧
    (files = [] → img.length = headerSize) := by
  obtain ⟨hn, himg, _, _, _⟩ := finalize_ok_layout c files img h
  constructor
  · rw [himg, specEntries_eq_range]
    simp [FilesystemHeader.to_bytes, DirEntry.to_bytes, List.map_map,
      List.length_map, Function.comp_def, List.append_assoc]
  · intro hnil
    subst hnil
    rw [himg]
    simp [specEntries, header_to_bytes_length]

/-- Witness for C6: the one-file build with payload `data21` and capacity 64
produces exactly the 39-byte image `img39`, and the layout equation holds at
that input. -/
theorem C6_image_layout_witness :
    SimpleFsBuilder.finalize ⟨64, [FileInfo.mk data21]⟩ = .ok img39 ∧
    (img39 = natToBeBytes 8 SIGNATURE ++ natToBeBytes 2 [FileInfo.mk data21].length
        ++ ((List.range [FileInfo.mk data21].length).map (fun i =>
              natToBeBytes 4 (headerSize + [FileInfo.mk data21].length * entrySize
                + totalLen (([FileInfo.mk data21].map FileInfo.data).take i))
              ++ natToBeBytes 4
                  (([FileInfo.mk data21].map FileInfo.data).getD i []).length)).flatten
        ++ ([FileInfo.mk data21].map FileInfo.data).flatten ∧
     ([FileInfo.mk data21] = [] → img39.length = headerSize)) :=
  ⟨by rfl, C6_image_layout 64 [FileInfo.mk data21] img39 (by rfl)⟩

/-- C1 counterexample: 65536 empty payloads all fit the 32-bit length field
and the whole image fits a capacity of `10 + 8 * 65536` bytes, yet the build
fails with `TooManyFiles`, so no image exists to mount: the claim omits the
16-bit file-count limit. -/
theorem C1_counterexample :
    (∀ f ∈ List.replicate 65536 (FileInfo.mk []), f.data.length < 2 ^ 32) ∧
    headerSize + (List.replicate 65536 (FileInfo.mk [])).length * entrySize
      + totalLen ((List.replicate 65536 (FileInfo.mk [])).map FileInfo.data)
      ≤ 10 + 8 * 65536 ∧
    SimpleFsBuilder.finalize ⟨10 + 8 * 65536, List.replicate 65536 (FileInfo.mk [])⟩
      = .error .TooManyFiles := by
  refine ⟨?_, ?_, ?_⟩
  · intro f hf
    rw [List.eq_of_mem_replicate hf]
    show (0 : Nat) < 2 ^ 32
    norm_num
  · rw [List.length_replicate, totalLen_map_replicate_nil]
    norm_num [headerSize, entrySize]
  · apply finalize_tooMany
    rw [List.length_replicate]
    norm_num

/-- C1 (amended): whenever the build succeeds — which additionally requires
the file count to fit the 16-bit count field and every computed offset to fit
the 32-bit offset field — mounting the built image succeeds, reports the
number of files added, and reading each file to completion yields exactly the
corresponding payload. -/
theorem C1_round_trip (c : Nat) (files : List FileInfo) (img : List Nat)
    (hok : SimpleFsBuilder.finalize ⟨c, files⟩ = .ok img) :
    ∃ fs, mount (RamStorage img) = .ok fs ∧ fs.get_num_files = files.length ∧
      ∀ i, i < files.length → ∃ f, fs.openFile i = .ok f ∧
        f.total_size = ((files.map FileInfo.data).getD i []).length ∧
        (f.read f.total_size).1 =
          .ok (((files.map FileInfo.data).getD i []).length,
               (files.map FileInfo.data).getD i []) := by
  obtain ⟨hn, himg, _, _, _⟩ := finalize_ok_layout c files img hok
  have hds : (files.map FileInfo.data).length = files.length := List.length_map files _
  have hesl : (specEntries (headerSize + files.length * entrySize)
      (files.map FileInfo.data)).length = files.length := by
    rw [specEntries_length, hds]
  have hEB : (((specEntries (headerSize + files.length * entrySize)
      (files.map FileInfo.data)).map DirEntry.to_bytes).flatten).length
      = entrySize * files.length := by
    rw [entriesBytes_length, hesl]
  have hmount : mount (RamStorage img) = .ok ⟨RamStorage img, files.length⟩ := by
    rw [himg]
    exact mount_built files.length _ _ hn hEB
  refine ⟨⟨RamStorage img, files.length⟩, hmount, rfl, ?_⟩
  intro i hi
  exact ⟨_, openFile_built c files img hok i hi, rfl, read_built c files img hok i hi⟩

/-- Witness for C1 at the concrete one-file build from the repository's
tests: payload `1..21`, capacity 64. -/
theorem C1_round_trip_witness :
    SimpleFsBuilder.finalize ⟨64, [FileInfo.mk data21]⟩ = .ok img39 ∧
    (∃ fs, mount (RamStorage img39) = .ok fs ∧
      fs.get_num_files = [FileInfo.mk data21].length ∧
      ∀ i, i < [FileInfo.mk data21].length → ∃ f, fs.openFile i = .ok f ∧
        f.total_size = (([FileInfo.mk data21].map FileInfo.data).getD i []).length ∧
        (f.read f.total_size).1 =
          .ok ((([FileInfo.mk data21].map FileInfo.data).getD i []).length,
               ([FileInfo.mk data21].map FileInfo.data).getD i [])) :=
  ⟨by rfl, C1_round_trip 64 [FileInfo.mk data21] img39 (by rfl)⟩

theorem finalize_ok_length (c : Nat) (files : List FileInfo) (img : List Nat)
    (h : SimpleFsBuilder.finalize ⟨c, files⟩ = .ok img) :
    img.length = headerSize + files.length * entrySize
      + totalLen (files.map FileInfo.data) := by
  obtain ⟨_, himg, _, _, _⟩ := finalize_ok_layout c files img h
  have hds : (files.map FileInfo.data).length = files.length := List.length_map files _
  have hesl : (specEntries (headerSize + files.length * entrySize)
      (files.map FileInfo.data)).length = files.length := by
    rw [specEntries_length, hds]
  have hEB : (((specEntries (headerSize + files.length * entrySize)
      (files.map FileInfo.data)).map DirEntry.to_bytes).flatten).length
      = entrySize * files.length := by
    rw [entriesBytes_length, hesl]
  have hPJ : ((files.map FileInfo.data).flatten).length
      = totalLen (files.map FileInfo.data) := length_flatten_eq_totalLen _
  have hcomm : files.length * entrySize = entrySize * files.length := by ring
  rw [himg]
  simp only [List.length_append, header_to_bytes_length, hEB, hPJ]
  omega

/-- C2 counterexample: a builder with capacity 0 and no files finalizes
successfully to the 10-byte header, although the running offset (the header
alone) exceeds the capacity; the returned buffer is longer than the
capacity. -/
theorem C2_counterexample :
    SimpleFsBuilder.finalize ⟨0, []⟩ = .ok (natToBeBytes 8 SIGNATURE ++ natToBeBytes 2 0) ∧
    (natToBeBytes 8 SIGNATURE ++ natToBeBytes 2 0).length = headerSize ∧
    0 < headerSize :=
  ⟨by rfl, by rfl, by norm_num [headerSize]⟩

/-- C2 (amended): for a builder holding at least one file whose count fits
the 16-bit field and whose payloads all fit the 32-bit length field, a
successful finalize returns a buffer no longer than the capacity, and
finalize returns `OutOfSpace` whenever the final running offset exceeds the
capacity or some computed entry offset does not fit the 32-bit offset field.
(With zero files finalize never checks the capacity and always returns the
bare 10-byte header, as the counterexample shows.) -/
theorem C2_out_of_space (c : Nat) (files : List FileInfo) (hne : files ≠ [])
    (hlens : ∀ f ∈ files, f.data.length < 2 ^ 32) (hcount : files.length < 2 ^ 16) :
    (∀ img, SimpleFsBuilder.finalize ⟨c, files⟩ = .ok img → img.length ≤ c) ∧
    (c < headerSize + files.length * entrySize + totalLen (files.map FileInfo.data) →
      SimpleFsBuilder.finalize ⟨c, files⟩ = .error .OutOfSpace) ∧
    ((∃ i, i < files.length ∧ 2 ^ 32 ≤ headerSize + files.length * entrySize
        + totalLen ((files.map FileInfo.data).take i)) →
      SimpleFsBuilder.finalize ⟨c, files⟩ = .error .OutOfSpace) := by
  refine ⟨?_, ?_, ?_⟩
  · intro img hok
    have hlen := finalize_ok_length c files img hok
    obtain ⟨_, _, _, _, hcap⟩ := finalize_ok_layout c files img hok
    have := hcap hne
    omega
  · intro hover
    have hloop := finalizeLoop_outOfSpace c files
      (headerSize + files.length * entrySize) hlens (Or.inl (by omega)) hne
    unfold SimpleFsBuilder.finalize
    dsimp only
    rw [if_neg (by omega), hloop]
  · intro hov
    have hloop := finalizeLoop_outOfSpace c files
      (headerSize + files.length * entrySize) hlens (Or.inr hov) hne
    unfold SimpleFsBuilder.finalize
    dsimp only
    rw [if_neg (by omega), hloop]

/-- Witness for C2: with one 3-byte file, capacity 21 admits the 21-byte
image while capacity 20 triggers `OutOfSpace`. -/
theorem C2_out_of_space_witness :
    (∀ img, SimpleFsBuilder.finalize ⟨21, [FileInfo.mk [1, 2, 3]]⟩ = .ok img →
      img.length ≤ 21) ∧
    SimpleFsBuilder.finalize ⟨20, [FileInfo.mk [1, 2, 3]]⟩ = .error .OutOfSpace :=
  ⟨(C2_out_of_space 21 [FileInfo.mk [1, 2, 3]] (by simp) (by decide) (by norm_num)).1,
   (C2_out_of_space 20 [FileInfo.mk [1, 2, 3]] (by simp) (by decide) (by norm_num)).2.1
     (by decide)⟩

/-- Helper for the C8 facts: a first file whose payload overflows the length
field makes finalize fail with `FileTooBig` when no earlier check trips. -/
theorem finalize_tooBig_head (c : Nat) (f : FileInfo) (rest : List FileInfo)
    (hcount : (f :: rest).length < 2 ^ 16)
    (hoff : headerSize + (f :: rest).length * entrySize < 2 ^ 32)
    (hbig : 2 ^ 32 ≤ f.data.length) :
    SimpleFsBuilder.finalize ⟨c, f :: rest⟩ = .error .FileTooBig := by
  unfold SimpleFsBuilder.finalize
  dsimp only
  rw [if_neg (by omega), finalizeLoop, if_neg (by omega), if_pos (by omega)]

/-- C8 counterexample: with capacity 50 and files `[100 zero bytes,
2^32 zero bytes]`, the second payload does not fit the 32-bit length field
and the count fits the 16-bit field, yet finalize returns `OutOfSpace` (the
capacity check on the first file preempts the length check on the second),
not `FileTooBig`. -/
theorem C8_counterexample :
    2 ^ 32 ≤ (([FileInfo.mk (List.replicate 100 0),
        FileInfo.mk (List.replicate (2 ^ 32) 0)].getD 1 ⟨[]⟩).data).length ∧
    [FileInfo.mk (List.replicate 100 0),
        FileInfo.mk (List.replicate (2 ^ 32) 0)].length < 2 ^ 16 ∧
    SimpleFsBuilder.finalize ⟨50, [FileInfo.mk (List.replicate 100 0),
        FileInfo.mk (List.replicate (2 ^ 32) 0)]⟩ = .error .OutOfSpace := by
  refine ⟨?_, ?_, by rfl⟩
  · show 2 ^ 32 ≤ (List.replicate (2 ^ 32) (0 : Nat)).length
    exact le_of_eq (List.length_replicate (2 ^ 32) 0).symm
  · show (2 : Nat) < 2 ^ 16
    norm_num

/-- C8 (amended): finalize returns `TooManyFiles` exactly when the file
count does not fit the 16-bit count field; a successful finalize implies
every payload fits the 32-bit length field (so an oversized payload is
always fatal and no partial image is returned); and `FileTooBig` is returned
only when some payload does not fit the length field — though `OutOfSpace`
may be reported instead when an earlier file already exhausts the capacity,
as the counterexample shows. -/
theorem C8_fatal_errors (c : Nat) (files : List FileInfo) :
    (SimpleFsBuilder.finalize ⟨c, files⟩ = .error .TooManyFiles ↔
      2 ^ 16 ≤ files.length) ∧
    (∀ img, SimpleFsBuilder.finalize ⟨c, files⟩ = .ok img →
      ∀ f ∈ files, f.data.length < 2 ^ 32) ∧
    (SimpleFsBuilder.finalize ⟨c, files⟩ = .error .FileTooBig →
      ∃ f ∈ files, 2 ^ 32 ≤ f.data.length) := by
  refine ⟨⟨?_, ?_⟩, ?_, ?_⟩
  · intro h
    by_cases hn : 2 ^ 16 ≤ files.length
    · exact hn
    · exfalso
      unfold SimpleFsBuilder.finalize at h
      dsimp only at h
      rw [if_neg (by omega)] at h
      split at h
      · rename_i e he
        injection h with h
        subst h
        exact finalizeLoop_ne_tooMany c files _ he
      · simp at h
  · intro h
    exact finalize_tooMany _ h
  · intro img hok
    obtain ⟨_, _, hall, _, _⟩ := finalize_ok_layout c files img hok
    exact hall
  · intro h
    unfold SimpleFsBuilder.finalize at h
    dsimp only at h
    split at h
    · simp at h
    · split at h
      · rename_i e he
        injection h with h
        subst h
        exact finalizeLoop_fileTooBig c files _ he
      · simp at h

/-- Witness for C8: a single payload of 2^32 zero bytes makes finalize fail
with `FileTooBig`, and the third conjunct recovers the oversized payload. -/
theorem C8_fatal_errors_witness :
    ∃ f ∈ [FileInfo.mk (List.replicate (2 ^ 32) 0)], 2 ^ 32 ≤ f.data.length := by
  have hbig : 2 ^ 32 ≤ (FileInfo.mk (List.replicate (2 ^ 32) 0)).data.length :=
    le_of_eq (List.length_replicate (2 ^ 32) 0).symm
  have hft : SimpleFsBuilder.finalize ⟨2 ^ 40, [FileInfo.mk (List.replicate (2 ^ 32) 0)]⟩
      = .error .FileTooBig :=
    finalize_tooBig_head (2 ^ 40) (FileInfo.mk (List.replicate (2 ^ 32) 0)) []
      (show (1 : Nat) < 2 ^ 16 by norm_num)
      (show headerSize + 1 * entrySize < 2 ^ 32 by norm_num [headerSize, entrySize])
      hbig
  exact (C8_fatal_errors (2 ^ 40) [FileInfo.mk (List.replicate (2 ^ 32) 0)]).2.2 hft

/-- C3: mount fails with `CorruptedFileSystem` when the capacity is smaller
than the 10-byte header, when the header cannot be decoded, or when the
capacity is smaller than `headerSize + num_files * entrySize`; it fails with
`InvalidSignature` when the decoded signature differs from the fixed
constant; otherwise (absent storage errors) it succeeds and
`get_num_files` equals the decoded count. -/
theorem C3_mount_validation (s : Storage) :
    (s.capacity < headerSize → mount s = .error .CorruptedFileSystem) ∧
    (∀ raw, ¬ s.capacity < headerSize → s.read 0 headerSize = some raw →
      (FilesystemHeader.from_bytes (fillBuf headerSize raw) = none →
        mount s = .error .CorruptedFileSystem) ∧
      (∀ h, FilesystemHeader.from_bytes (fillBuf headerSize raw) = some h →
        (h.signature ≠ SIGNATURE → mount s = .error .InvalidSignature) ∧
        (h.signature = SIGNATURE →
          s.capacity < headerSize + h.num_files * entrySize →
          mount s = .error .CorruptedFileSystem) ∧
        (h.signature = SIGNATURE →
          ¬ s.capacity < headerSize + h.num_files * entrySize →
          ∃ fs, mount s = .ok fs ∧ fs.get_num_files = h.num_files))) := by
  constructor
  · intro h
    unfold mount
    rw [if_pos h]
  · intro raw hc hr
    constructor
    · intro hd
      unfold mount
      rw [if_neg hc, hr]
      dsimp only
      rw [hd]
    · intro hdr hd
      refine ⟨?_, ?_, ?_⟩
      · intro hsig
        unfold mount
        rw [if_neg hc, hr]
        dsimp only
        rw [hd]
        dsimp only
        rw [if_pos hsig]
      · intro hsig hcap
        unfold mount
        rw [if_neg hc, hr]
        dsimp only
        rw [hd]
        dsimp only
        rw [if_neg (by simp [hsig]), if_pos hcap]
      · intro hsig hcap
        unfold mount
        rw [if_neg hc, hr]
        dsimp only
        rw [hd]
        dsimp only
        rw [if_neg (by simp [hsig]), if_neg hcap]
        exact ⟨_, rfl, rfl⟩

/-- Witness for C3: a 3-byte storage is rejected as corrupted; an all-zero
10-byte header is rejected as an invalid signature; a valid header declaring
5 files in a 10-byte storage is rejected as corrupted; the one-file image
`img39` mounts with one file. -/
theorem C3_mount_validation_witness :
    mount (RamStorage [0, 0, 0]) = .error .CorruptedFileSystem ∧
    mount (RamStorage (natToBeBytes 8 0 ++ natToBeBytes 2 0)) = .error .InvalidSignature ∧
    mount (RamStorage (natToBeBytes 8 SIGNATURE ++ natToBeBytes 2 5)) =
      .error .CorruptedFileSystem ∧
    (∃ fs, mount (RamStorage img39) = .ok fs ∧ fs.get_num_files = 1) := by
  refine ⟨?_, ?_, ?_, ?_⟩
  · exact (C3_mount_validation (RamStorage [0, 0, 0])).1 (by decide)
  · have h1 := ((C3_mount_validation (RamStorage (natToBeBytes 8 0 ++ natToBeBytes 2 0))).2
        (natToBeBytes 8 0 ++ natToBeBytes 2 0) (by decide) (by rfl)).2
        ⟨0, 0⟩ (by rfl)
    exact h1.1 (by decide)
  · have h1 := ((C3_mount_validation
        (RamStorage (natToBeBytes 8 SIGNATURE ++ natToBeBytes 2 5))).2
        (natToBeBytes 8 SIGNATURE ++ natToBeBytes 2 5) (by decide) (by rfl)).2
        ⟨SIGNATURE, 5⟩ (by rfl)
    exact h1.2.1 rfl (by decide)
  · have h1 := ((C3_mount_validation (RamStorage img39)).2
        (byteSlice img39 0 headerSize) (by decide) (by rfl)).2
        ⟨SIGNATURE, 1⟩ (by rfl)
    exact h1.2.2 rfl (by decide)

/-- C4: `open` fails with `InvalidFileIndex` exactly when the index is not
below `num_files` (so `open 0` on an empty filesystem fails this way); for a
valid index it issues the one directory-entry read at
`headerSize + index * entrySize`, fails with `CorruptedFileSystem` when the
entry cannot be decoded or when `offset + length` exceeds the storage
capacity, and otherwise returns a handle whose `read_position` is 0 and
whose `total_size` is the entry's length. -/
theorem C4_open_validation (fs : FileSystem) (index : Nat) :
    (fs.openFile index = .error .InvalidFileIndex ↔ fs.num_files ≤ index) ∧
    (index < fs.num_files →
      openCalls fs index = [(headerSize + index * entrySize, entrySize)] ∧
      ∀ raw, fs.storage.read (headerSize + index * entrySize) entrySize = some raw →
        (DirEntry.from_bytes (fillBuf entrySize raw) = none →
          fs.openFile index = .error .CorruptedFileSystem) ∧
        ∀ e, DirEntry.from_bytes (fillBuf entrySize raw) = some e →
          (fs.storage.capacity < e.offset + e.length →
            fs.openFile index = .error .CorruptedFileSystem) ∧
          (¬ fs.storage.capacity < e.offset + e.length →
            ∃ f, fs.openFile index = .ok f ∧ f.read_position = 0 ∧
              f.total_size = e.length)) := by
  constructor
  · constructor
    · intro h
      by_cases hge : fs.num_files ≤ index
      · exact hge
      · exfalso
        unfold FileSystem.openFile at h
        rw [if_neg (by omega)] at h
        split at h
        · simp at h
        · split at h
          · simp at h
          · split at h
            · simp at h
            · simp at h
    · intro h
      unfold FileSystem.openFile
      rw [if_pos h]
  · intro hidx
    constructor
    · unfold openCalls
      rw [if_neg (by omega)]
    · intro raw hr
      constructor
      · intro hd
        unfold FileSystem.openFile
        rw [if_neg (by omega), hr]
        dsimp only
        rw [hd]
      · intro e hd
        constructor
        · intro hcap
          unfold FileSystem.openFile
          rw [if_neg (by omega), hr]
          dsimp only
          rw [hd]
          dsimp only
          rw [if_pos (by omega)]
        · intro hcap
          unfold FileSystem.openFile
          rw [if_neg (by omega), hr]
          dsimp only
          rw [hd]
          dsimp only
          rw [if_neg (by omega)]
          exact ⟨_, rfl, rfl, rfl⟩

/-- Witness for C4: on the mounted one-file image `img39`, `open 1` fails
with `InvalidFileIndex`, `open 0` on an empty filesystem fails the same way,
and `open 0` succeeds with cursor 0 and size 21. -/
theorem C4_open_validation_witness :
    (FileSystem.mk (RamStorage img39) 1).openFile 1 = .error .InvalidFileIndex ∧
    (FileSystem.mk (RamStorage (natToBeBytes 8 SIGNATURE ++ natToBeBytes 2 0)) 0).openFile 0
      = .error .InvalidFileIndex ∧
    (∃ f, (FileSystem.mk (RamStorage img39) 1).openFile 0 = .ok f ∧
      f.read_position = 0 ∧ f.total_size = 21) := by
  refine ⟨?_, ?_, ?_⟩
  · exact (C4_open_validation (FileSystem.mk (RamStorage img39) 1) 1).1.mpr (by norm_num)
  · exact (C4_open_validation
      (FileSystem.mk (RamStorage (natToBeBytes 8 SIGNATURE ++ natToBeBytes 2 0)) 0) 0).1.mpr
      (by norm_num)
  · have h1 := (((C4_open_validation (FileSystem.mk (RamStorage img39) 1) 0).2
        (by norm_num)).2
        (byteSlice img39 (headerSize + 0 * entrySize) entrySize) (by rfl)).2
        ⟨18, 21⟩ (by rfl)
    exact h1.2 (by decide)

theorem byteSlice_add (l : List Nat) (o a b : Nat) :
    byteSlice l o (a + b) = byteSlice l o a ++ byteSlice l (o + a) b := by
  rw [byteSlice, byteSlice, byteSlice, List.take_add, List.drop_drop]

theorem readMany_ram (bytes : List Nat) (sizes : List Nat) : ∀ (f : File),
    f.storage = RamStorage bytes →
    f.file_offset + f.file_size ≤ bytes.length →
    f.read_position ≤ f.file_size →
    ∃ chunks f',
      readMany f sizes = (.ok chunks, f') ∧
      chunks.flatten = byteSlice bytes (f.file_offset + f.read_position)
        (min sizes.sum (f.file_size - f.read_position)) ∧
      (chunks.map List.length).sum = min sizes.sum (f.file_size - f.read_position) ∧
      f'.storage = f.storage ∧ f'.file_offset = f.file_offset ∧
      f'.file_size = f.file_size ∧
      f'.read_position = f.read_position + min sizes.sum (f.file_size - f.read_position) := by
  induction sizes with
  | nil =>
    intro f hs hb hp
    refine ⟨[], f, rfl, ?_, ?_, rfl, rfl, rfl, ?_⟩
    · simp [byteSlice]
    · simp
    · simp
  | cons s rest ih =>
    intro f hs hb hp
    by_cases hbtr : min s (f.file_size - f.read_position) = 0
    · have hread : f.read s = (.ok (0, []), f) := by
        unfold File.read
        dsimp only
        rw [if_neg (by omega)]
      obtain ⟨chunks, f', hrm, hfl, hsum, hst, hof, hsz, hpos⟩ := ih f hs hb hp
      refine ⟨[] :: chunks, f', ?_, ?_, ?_, hst, hof, hsz, ?_⟩
      · rw [readMany, hread]
        dsimp only
        rw [hrm]
      · rw [List.flatten_cons, List.nil_append, hfl]
        congr 1
        simp only [List.sum_cons]
        omega
      · simp only [List.map_cons, List.sum_cons, List.length_nil]
        omega
      · simp only [List.sum_cons]
        omega
    · have hbound : f.file_offset + f.read_position
          + min s (f.file_size - f.read_position) ≤ bytes.length := by omega
      have hread : f.read s = (.ok (min s (f.file_size - f.read_position),
          byteSlice bytes (f.file_offset + f.read_position)
            (min s (f.file_size - f.read_position))),
          File.mk f.storage f.file_offset f.file_size
            (f.read_position + min s (f.file_size - f.read_position))) := by
        unfold File.read
        dsimp only
        rw [if_pos (by omega), hs, RamStorage_read_def, if_pos (by omega)]
        dsimp only
        rw [fillBuf_eq_self _ _ (byteSlice_length bytes
          (f.file_offset + f.read_position)
          (min s (f.file_size - f.read_position)) hbound)]
      obtain ⟨chunks, f', hrm, hfl, hsum, hst, hof, hsz, hpos⟩ := ih
        (File.mk f.storage f.file_offset f.file_size
          (f.read_position + min s (f.file_size - f.read_position)))
        hs hb (by show f.read_position + _ ≤ f.file_size; omega)
      dsimp only at hrm hfl hsum hst hof hsz hpos
      refine ⟨byteSlice bytes (f.file_offset + f.read_position)
          (min s (f.file_size - f.read_position)) :: chunks, f', ?_, ?_, ?_, hst, hof, hsz, ?_⟩
      · rw [readMany, hread]
        dsimp only
        rw [hrm]
      · rw [List.flatten_cons, hfl,
          show f.file_offset + (f.read_position + min s (f.file_size - f.read_position))
            = f.file_offset + f.read_position + min s (f.file_size - f.read_position)
            by ring,
          ← byteSlice_add]
        congr 1
        simp only [List.sum_cons]
        omega
      · simp only [List.map_cons, List.sum_cons,
          byteSlice_length bytes _ _ hbound]
        omega
      · rw [hpos]
        simp only [List.sum_cons]
        omega

/-- C5: `File::read` returns `min(bufLen, file_size - read_position)` bytes
and advances the cursor by that count; it issues exactly one storage read,
at `file_offset + read_position`, and only when the count is positive; once
the cursor has reached `file_size` it returns `Ok 0` without touching
storage; on an in-bounds RAM-backed handle, repeated reads whose sizes sum
to at least the file size succeed, their counts sum to `total_size`, their
concatenated chunks equal the single full-size read, and any further read
returns zero bytes rather than an error. -/
theorem C5_read_semantics :
    (∀ (f : File) (bufLen cnt : Nat) (data : List Nat),
      (f.read bufLen).1 = .ok (cnt, data) →
      cnt = min bufLen (f.file_size - f.read_position) ∧
      ((f.read bufLen).2).read_position = f.read_position + cnt) ∧
    (∀ (f : File) (bufLen : Nat),
      readCalls f bufLen =
        if 0 < min bufLen (f.file_size - f.read_position) then
          [(f.file_offset + f.read_position, min bufLen (f.file_size - f.read_position))]
        else []) ∧
    (∀ (f : File) (bufLen : Nat), f.read_position = f.file_size →
      f.read bufLen = (.ok (0, []), f)) ∧
    (∀ (bytes : List Nat) (f : File) (sizes : List Nat),
      f.storage = RamStorage bytes →
      f.file_offset + f.file_size ≤ bytes.length →
      f.read_position = 0 →
      f.file_size ≤ sizes.sum →
      ∃ chunks f', readMany f sizes = (.ok chunks, f') ∧
        (chunks.map List.length).sum = f.total_size ∧
        chunks.flatten = byteSlice bytes f.file_offset f.file_size ∧
        (f.read f.file_size).1 = .ok (f.file_size, chunks.flatten) ∧
        f'.read_position = f.file_size ∧
        ∀ bufLen, f'.read bufLen = (.ok (0, []), f')) := by
  refine ⟨?_, ?_, ?_, ?_⟩
  · intro f bufLen cnt data h
    unfold File.read at h ⊢
    dsimp only at h ⊢
    by_cases hbtr : 0 < min bufLen (f.file_size - f.read_position)
    · rw [if_pos hbtr] at h ⊢
      cases hr : f.storage.read (f.file_offset + f.read_position)
          (min bufLen (f.file_size - f.read_position)) with
      | none =>
        rw [hr] at h
        simp at h
      | some data' =>
        rw [hr] at h
        dsimp only at h ⊢
        simp only [Except.ok.injEq, Prod.mk.injEq] at h
        obtain ⟨h1, h2⟩ := h
        refine ⟨h1.symm, ?_⟩
        omega
    · rw [if_neg hbtr] at h ⊢
      dsimp only at h ⊢
      simp only [Except.ok.injEq, Prod.mk.injEq] at h
      constructor
      · omega
      · omega
  · intro f bufLen
    rfl
  · intro f bufLen h
    unfold File.read
    dsimp only
    rw [if_neg (by omega)]
  · intro bytes f sizes hs hb hp0 hsum
    obtain ⟨chunks, f', hrm, hfl, hsumc, hst, hof, hsz, hpos⟩ :=
      readMany_ram bytes sizes f hs hb (by omega)
    have hmin : min sizes.sum (f.file_size - f.read_position) = f.file_size := by omega
    rw [hmin] at hfl hsumc hpos
    rw [hp0, Nat.add_zero] at hfl
    refine ⟨chunks, f', hrm, hsumc, hfl, ?_, by omega, ?_⟩
    · by_cases hz : f.file_size = 0
      · have hfle : chunks.flatten = [] := by
          rw [hfl, hz]
          simp [byteSlice]
        rw [hfle]
        unfold File.read
        dsimp only
        rw [if_neg (by omega), hz]
      · unfold File.read
        dsimp only
        rw [if_pos (by omega), hs, RamStorage_read_def, if_pos (by omega)]
        dsimp only
        rw [hp0, Nat.add_zero, Nat.sub_zero, Nat.min_self, hfl,
          fillBuf_eq_self _ _ (byteSlice_length bytes _ _ (by omega))]
    · intro bufLen
      unfold File.read
      dsimp only
      rw [if_neg (by omega)]

/-- Witness for C5: on the 21-byte file of `img39`, a handle whose cursor is
at end-of-file reads zero bytes, and reads of sizes 5, 5, 5, 6 from a fresh
handle reassemble the payload. -/
theorem C5_read_semantics_witness :
    (File.mk (RamStorage img39) 18 21 21).read 4
      = (.ok (0, []), File.mk (RamStorage img39) 18 21 21) ∧
    (∃ chunks f', readMany (File.mk (RamStorage img39) 18 21 0) [5, 5, 5, 6]
        = (.ok chunks, f') ∧
      (chunks.map List.length).sum = (File.mk (RamStorage img39) 18 21 0).total_size ∧
      chunks.flatten = byteSlice img39 18 21 ∧
      ((File.mk (RamStorage img39) 18 21 0).read 21).1 = .ok (21, chunks.flatten) ∧
      f'.read_position = 21 ∧
      ∀ bufLen, f'.read bufLen = (.ok (0, []), f')) :=
  ⟨C5_read_semantics.2.2.1 (File.mk (RamStorage img39) 18 21 21) 4 rfl,
   C5_read_semantics.2.2.2 img39 (File.mk (RamStorage img39) 18 21 0) [5, 5, 5, 6]
     rfl (by decide) rfl (by decide)⟩

theorem mount_ok_inv (s : Storage) (fs : FileSystem) (h : mount s = .ok fs) :
    fs.storage = s ∧ headerSize + fs.num_files * entrySize ≤ s.capacity := by
  unfold mount at h
  split at h
  · simp at h
  · split at h
    · simp at h
    · split at h
      · simp at h
      · split at h
        · simp at h
        · split at h
          · simp at h
          · rename_i hcap
            cases h
            refine ⟨rfl, ?_⟩
            dsimp only
            omega

theorem openFile_ok_inv (fs : FileSystem) (i : Nat) (f : File)
    (h : fs.openFile i = .ok f) :
    f.storage = fs.storage ∧ f.file_offset + f.file_size ≤ fs.storage.capacity ∧
    f.read_position ≤ f.file_size := by
  unfold FileSystem.openFile at h
  split at h
  · simp at h
  · split at h
    · simp at h
    · split at h
      · simp at h
      · split at h
        · simp at h
        · rename_i hcap
          cases h
          refine ⟨rfl, ?_, ?_⟩ <;> dsimp only [File.new] <;> omega

theorem read_step_inv (f : File) (bufLen : Nat) :
    ((f.read bufLen).2).storage = f.storage ∧
    ((f.read bufLen).2).file_offset = f.file_offset ∧
    ((f.read bufLen).2).file_size = f.file_size ∧
    (f.read_position ≤ f.file_size → ((f.read bufLen).2).read_position ≤ f.file_size) := by
  unfold File.read
  dsimp only
  by_cases hbtr : 0 < min bufLen (f.file_size - f.read_position)
  · rw [if_pos hbtr]
    cases hr : f.storage.read (f.file_offset + f.read_position)
        (min bufLen (f.file_size - f.read_position)) with
    | none => exact ⟨rfl, rfl, rfl, fun h => h⟩
    | some d =>
      refine ⟨rfl, rfl, rfl, ?_⟩
      intro h
      dsimp only
      omega
  · rw [if_neg hbtr]
    exact ⟨rfl, rfl, rfl, fun h => h⟩

theorem goodFile_inv (s : Storage) (f : File) (h : GoodFile s f) :
    f.storage = s ∧ f.file_offset + f.file_size ≤ s.capacity ∧
    f.read_position ≤ f.file_size := by
  induction h with
  | opened fs i f hm ho =>
    obtain ⟨hst, _⟩ := mount_ok_inv s fs hm
    obtain ⟨h1, h2, h3⟩ := openFile_ok_inv fs i f ho
    rw [hst] at h1 h2
    exact ⟨h1, h2, h3⟩
  | stepped f bufLen r f' _ hr ih =>
    obtain ⟨h1, h2, h3⟩ := ih
    have hstep := read_step_inv f bufLen
    rw [hr] at hstep
    dsimp only at hstep
    obtain ⟨t1, t2, t3, t4⟩ := hstep
    refine ⟨t1.trans h1, ?_, ?_⟩
    · rw [t2, t3]; exact h2
    · rw [t3]; exact t4 h3

/-- C7: over every sequence of mount, open and read operations against any
storage backend, every `Storage::read` call the filesystem issues has its
offset at most the capacity and its buffer no longer than the capacity minus
that offset. -/
theorem C7_read_in_bounds (s : Storage) (c : Nat × Nat) (h : ReadCall s c) :
    c.1 ≤ s.capacity ∧ c.2 ≤ s.capacity - c.1 := by
  have key : c.1 + c.2 ≤ s.capacity := by
    cases h with
    | mount_call c hc =>
      unfold mountCalls at hc
      split at hc
      · simp at hc
      · rename_i hcap
        simp at hc
        subst hc
        dsimp only
        omega
    | open_call fs i c hm hc =>
      obtain ⟨hst, hcap⟩ := mount_ok_inv s fs hm
      unfold openCalls at hc
      split at hc
      · simp at hc
      · rename_i hidx
        simp at hc
        subst hc
        dsimp only
        have hmul : (i + 1) * entrySize ≤ fs.num_files * entrySize :=
          Nat.mul_le_mul_right entrySize (by omega)
        have : i * entrySize + entrySize = (i + 1) * entrySize := by ring
        omega
    | read_call f bufLen c hg hc =>
      obtain ⟨h1, h2, h3⟩ := goodFile_inv s f hg
      unfold readCalls at hc
      dsimp only at hc
      split at hc
      · rename_i hbtr
        simp at hc
        subst hc
        dsimp only
        omega
      · simp at hc
  exact ⟨by omega, by omega⟩

/-- Witness for C7: the header read issued by mounting `img39` is in
bounds. -/
theorem C7_read_in_bounds_witness :
    (0, headerSize).1 ≤ (RamStorage img39).capacity ∧
    (0, headerSize).2 ≤ (RamStorage img39).capacity - (0, headerSize).1 :=
  C7_read_in_bounds (RamStorage img39) (0, headerSize)
    (ReadCall.mount_call _ (by decide))

/-- C9: open imposes no lower bound on a directory entry's offset: any
decoded entry with `offset + length` within capacity is accepted, even one
whose offset points into the header or directory region, and reads on the
returned handle then deliver those metadata bytes as file content. -/
theorem C9_no_offset_lower_bound (bytes : List Nat) (fs : FileSystem) (i : Nat) (e : DirEntry)
    (hm : mount (RamStorage bytes) = .ok fs) (hi : i < fs.num_files)
    (hd : DirEntry.from_bytes (byteSlice bytes (headerSize + i * entrySize) entrySize) = some e)
    (hb : e.offset + e.length ≤ bytes.length) :
    ∃ f, fs.openFile i = .ok f ∧ f.file_offset = e.offset ∧ f.file_size = e.length ∧
      (f.read e.length).1 = .ok (e.length, byteSlice bytes e.offset e.length) := by
  obtain ⟨hst, hcap⟩ := mount_ok_inv (RamStorage bytes) fs hm
  rw [RamStorage_capacity] at hcap
  have hmul : (i + 1) * entrySize ≤ fs.num_files * entrySize :=
    Nat.mul_le_mul_right entrySize (by omega)
  have hmul' : i * entrySize + entrySize = (i + 1) * entrySize := by ring
  have hbound : headerSize + i * entrySize + entrySize ≤ bytes.length := by omega
  have hopen : fs.openFile i = .ok (File.mk (RamStorage bytes) e.offset e.length 0) := by
    unfold FileSystem.openFile
    rw [if_neg (by omega), hst, RamStorage_read_def, if_pos (by omega)]
    dsimp only
    rw [fillBuf_eq_self _ _ (byteSlice_length bytes
      (headerSize + i * entrySize) entrySize hbound), hd]
    dsimp only
    rw [RamStorage_capacity, if_neg (by omega)]
    rfl
  refine ⟨_, hopen, rfl, rfl, ?_⟩
  by_cases hz : e.length = 0
  · unfold File.read
    dsimp only
    rw [if_neg (by omega), hz]
    rw [show byteSlice bytes e.offset 0 = [] by simp [byteSlice]]
  · unfold File.read
    dsimp only
    rw [if_pos (by omega), RamStorage_read_def, if_pos (by omega)]
    dsimp only
    rw [Nat.add_zero, Nat.sub_zero, Nat.min_self,
      fillBuf_eq_self _ _ (byteSlice_length bytes e.offset e.length (by omega))]

/-- Witness for C9: on `imgTampered`, open accepts the entry at offset 0 and
a full read returns the 8 signature bytes as file content. -/
theorem C9_no_offset_lower_bound_witness :
    (∃ f, (FileSystem.mk (RamStorage imgTampered) 1).openFile 0 = .ok f ∧
      f.file_offset = (0 : Nat) ∧ f.file_size = (8 : Nat) ∧
      (f.read 8).1 = .ok (8, byteSlice imgTampered 0 8)) ∧
    byteSlice imgTampered 0 8 = natToBeBytes 8 SIGNATURE := by
  constructor
  · exact C9_no_offset_lower_bound imgTampered
      (FileSystem.mk (RamStorage imgTampered) 1) 0 ⟨0, 8⟩
      (by rfl) (by norm_num) (by rfl) (by decide)
  · decide

theorem direntry_decode_fillBuf_isSome (raw : List Nat) :
    (DirEntry.from_bytes (fillBuf entrySize raw)).isSome := by
  unfold DirEntry.from_bytes
  rw [if_neg (by rw [fillBuf_length]; omega)]
  rfl

/-- C10: the decode-failure branch of open is unreachable: `from_bytes` is
always applied to an 8-byte buffer, whose remaining-bytes check always
passes; hence whenever open returns `CorruptedFileSystem` it is because the
decoded entry's `offset + length` exceeds the storage capacity, never
because decoding failed. -/
theorem C10_decode_unreachable (fs : FileSystem) (index : Nat) :
    (∀ raw : List Nat, (DirEntry.from_bytes (fillBuf entrySize raw)).isSome) ∧
    (fs.openFile index = .error .CorruptedFileSystem →
      ∃ e raw, fs.storage.read (headerSize + index * entrySize) entrySize = some raw ∧
        DirEntry.from_bytes (fillBuf entrySize raw) = some e ∧
        fs.storage.capacity < e.offset + e.length) := by
  constructor
  · exact direntry_decode_fillBuf_isSome
  · intro h
    unfold FileSystem.openFile at h
    split at h
    · simp at h
    · split at h
      · simp at h
      · rename_i raw hr
        split at h
        · rename_i hd
          exfalso
          have hsome := direntry_decode_fillBuf_isSome raw
          rw [hd] at hsome
          simp at hsome
        · rename_i e hd
          split at h
          · rename_i hcap
            exact ⟨e, raw, hr, hd, by omega⟩
          · simp at h

/-- Witness for C10: decoding an 8-byte buffer always succeeds (zero-filled
buffer included), and the corrupted-open on `imgBadEntry` indeed stems from
the bounds check on the decoded entry. -/
theorem C10_decode_unreachable_witness :
    (DirEntry.from_bytes (fillBuf entrySize [])).isSome ∧
    (∃ e raw, (RamStorage imgBadEntry).read (headerSize + 0 * entrySize) entrySize
        = some raw ∧
      DirEntry.from_bytes (fillBuf entrySize raw) = some e ∧
      (RamStorage imgBadEntry).capacity < e.offset + e.length) :=
  ⟨(C10_decode_unreachable (FileSystem.mk (RamStorage imgBadEntry) 1) 0).1 [],
   (C10_decode_unreachable (FileSystem.mk (RamStorage imgBadEntry) 1) 0).2 (by rfl)⟩

end SimpleFs
